import Mathlib

/-!
Verification of the capacities-companion core: the record extractor
(`src/utils/data.py`), the mention extractor and the graph builder
(`src/utils/networks.py`), shallowly embedded in Lean.

Python values that can appear in a record (YAML-parsed headers, property
mappings, node attributes) are modelled by the tagged variant `PyValue`.
External library functions that the source calls (`yaml.safe_load`,
`pd.to_datetime`) are abstracted as function parameters; stdlib string
helpers (`str.split`, `str.strip`, `PurePosixPath.name`, `urllib.parse.unquote`,
`json.dumps`) are modelled faithfully below.
-/

/-- Tagged variant covering the Python values relevant to the pipeline:
None, bool, int, str, list, dict (string-keyed, insertion-ordered), and
non-JSON-serializable objects such as YAML-parsed `datetime.date`
(represented by the `date` constructor). -/
inductive PyValue : Type where
  | null : PyValue
  | bool (b : Bool) : PyValue
  | int (n : Int) : PyValue
  | str (s : String) : PyValue
  | date (n : Nat) : PyValue
  | list (xs : List PyValue) : PyValue
  | dict (kvs : List (String × PyValue)) : PyValue

/-- Tests the `v is not None` filter from `build_object_graph`. -/
def PyValue.isNull : PyValue → Bool
  | .null => true
  | _ => false

/-- Models `pd.Timestamp`: an opaque point in time. Only identity and the
existence of an `isoformat` rendering matter to the claims. -/
structure Timestamp where
  val : Nat
deriving DecidableEq

/-- Models `pd.Timestamp.isoformat()`; the exact rendering is irrelevant to
the claims, only that it is a string. -/
def Timestamp.isoformat (t : Timestamp) : String := toString t.val

/-- First-match association-list lookup, the behaviour of Python `dict.get`
(our association lists are key-unique wherever they model a Python dict). -/
def getA {κ β : Type} [DecidableEq κ] : List (κ × β) → κ → Option β
  | [], _ => Option.none
  | (k, v) :: rest, key => if k = key then Option.some v else getA rest key

/-- Python `dict.update`: existing keys are overwritten in place, new keys
are appended in the update's order. -/
def dictUpdate (old upd : List (String × PyValue)) : List (String × PyValue) :=
  (old.map (fun kv =>
    match getA upd kv.1 with
    | Option.some v2 => (kv.1, v2)
    | Option.none => kv))
  ++ upd.filter (fun kv => (getA old kv.1).isNone)

/-- Python `dict.setdefault` restricted to what `build_object_graph` uses of
`file_lookup`: record the key on first occurrence. -/
def setdefaultL (lk : List String) (n : String) : List String :=
  if n ∈ lk then lk else lk ++ [n]

/-! ## A model of `json.dumps`

`jsonDumps v` is `some` of the JSON text (Python separators, no ASCII
escaping of non-ASCII characters) when `json.dumps` succeeds, and `none`
where Python raises `TypeError` on a non-serializable value. -/

/-- Hexadecimal digit character for `\uXXXX` escapes. -/
def hexDigit (n : Nat) : Char :=
  if n < 10 then Char.ofNat (48 + n) else Char.ofNat (87 + n)

/-- Four-digit hexadecimal rendering of a code point below 0x10000. -/
def hex4 (n : Nat) : String :=
  String.mk [hexDigit (n / 4096 % 16), hexDigit (n / 256 % 16),
    hexDigit (n / 16 % 16), hexDigit (n % 16)]

/-- JSON string escaping as `json.dumps` performs it. -/
def jsonEscapeChar (c : Char) : String :=
  if c = '"' then "\\\""
  else if c = '\\' then "\\\\"
  else if c = '\n' then "\\n"
  else if c = '\t' then "\\t"
  else if c = '\r' then "\\r"
  else if c = Char.ofNat 8 then "\\b"
  else if c = Char.ofNat 12 then "\\f"
  else if c.toNat < 32 then "\\u" ++ hex4 c.toNat
  else String.singleton c

/-- Quoted JSON string literal. -/
def jsonQuote (s : String) : String :=
  "\"" ++ String.join (s.data.map jsonEscapeChar) ++ "\""

mutual

/-- Models `json.dumps(v, ensure_ascii=False)`: `none` exactly where Python
raises `TypeError` (a non-serializable value somewhere inside `v`). -/
def jsonDumps : PyValue → Option String
  | .null => Option.some "null"
  | .bool b => Option.some (if b then "true" else "false")
  | .int n => Option.some (toString n)
  | .str s => Option.some (jsonQuote s)
  | .date _ => Option.none
  | .list xs =>
    match jsonDumpsL xs with
    | Option.some parts => Option.some ("[" ++ String.intercalate ", " parts ++ "]")
    | Option.none => Option.none
  | .dict kvs =>
    match jsonDumpsD kvs with
    | Option.some parts => Option.some ("\x7b" ++ String.intercalate ", " parts ++ "\x7d")
    | Option.none => Option.none

/-- Serialization of the elements of a JSON array. -/
def jsonDumpsL : List PyValue → Option (List String)
  | [] => Option.some []
  | x :: xs =>
    match jsonDumps x, jsonDumpsL xs with
    | Option.some s, Option.some rest => Option.some (s :: rest)
    | _, _ => Option.none

/-- Serialization of the entries of a JSON object. -/
def jsonDumpsD : List (String × PyValue) → Option (List String)
  | [] => Option.some []
  | (k, v) :: kvs =>
    match jsonDumps v, jsonDumpsD kvs with
    | Option.some s, Option.some rest => Option.some ((jsonQuote k ++ ": " ++ s) :: rest)
    | _, _ => Option.none

end

/-! ## Models of Python string primitives -/

/-- Python `str.isspace` characters as far as `str.strip()` with no argument
is exercised by this code base (ASCII whitespace). -/
def pyIsSpace (c : Char) : Bool :=
  c == ' ' || c == '\t' || c == '\n' || c == '\r' || c == Char.ofNat 11 || c == Char.ofNat 12

/-- Python `str.strip()`. -/
def pyStrip (cs : List Char) : List Char :=
  ((cs.dropWhile pyIsSpace).reverse.dropWhile pyIsSpace).reverse

/-- Python `str.endswith` (case-sensitive). -/
def pyEndsWith (s suffix : String) : Bool :=
  suffix.data.isSuffixOf s.data

/-- Split a character list at every occurrence of a single character,
keeping empty segments — the backbone of POSIX path parsing. -/
def splitChar (sep : Char) : List Char → List (List Char)
  | [] => [[]]
  | c :: cs =>
    if c = sep then [] :: splitChar sep cs
    else
      match splitChar sep cs with
      | [] => [[c]]
      | s :: ss => (c :: s) :: ss

/-- Models `PurePosixPath(p).name`: the last path component, with empty and
`.` components dropped, or the empty string when none remains. -/
def posixName (cs : List Char) : List Char :=
  match ((splitChar '/' cs).filter (fun s => !s.isEmpty && s != ['.'])).getLast? with
  | Option.some s => s
  | Option.none => []

/-- Index of the last occurrence of a character. -/
def lastIdxOf (c : Char) : List Char → Option Nat
  | [] => Option.none
  | x :: xs =>
    match lastIdxOf c xs with
    | Option.some i => Option.some (i + 1)
    | Option.none => if x = c then Option.some 0 else Option.none

/-- Models `pathlib.Path(p).stem`: the final component with its extension
removed (a suffix exists only when the last dot is neither the first nor the
last character of the name). -/
def stemOf (p : List Char) : List Char :=
  let nm := posixName p
  match lastIdxOf '.' nm with
  | Option.some i => if 0 < i ∧ i + 1 < nm.length then nm.take i else nm
  | Option.none => nm

/-- One non-overlapping leftmost split at `sep` (which is never empty here),
returning the parts before and after, or `none` when `sep` does not occur. -/
def splitOnce (sep : List Char) : List Char → Option (List Char × List Char)
  | [] => Option.none
  | c :: cs =>
    if sep.isPrefixOf (c :: cs) then Option.some ([], (c :: cs).drop sep.length)
    else
      match splitOnce sep cs with
      | Option.some (pre, post) => Option.some (c :: pre, post)
      | Option.none => Option.none

/-- Models Python `str.split(sep, maxsplit)`: at most `maxsplit`
non-overlapping leftmost splits. -/
def pySplitAux (sep : List Char) : Nat → List Char → List (List Char)
  | 0, cs => [cs]
  | n + 1, cs =>
    match splitOnce sep cs with
    | Option.none => [cs]
    | Option.some (pre, post) => pre :: pySplitAux sep n post

/-- Numeric value of a hexadecimal digit character. -/
def hexVal (c : Char) : Option Nat :=
  if '0' ≤ c ∧ c ≤ '9' then Option.some (c.toNat - 48)
  else if 'a' ≤ c ∧ c ≤ 'f' then Option.some (c.toNat - 87)
  else if 'A' ≤ c ∧ c ≤ 'F' then Option.some (c.toNat - 55)
  else Option.none

/-- First pass of `urllib.parse.unquote`: recognize `%XX` escapes (as bytes,
`Sum.inl`) and pass other characters through (`Sum.inr`). -/
def pctTokenize : List Char → List (Sum Nat Char)
  | '%' :: a :: b :: rest =>
    match hexVal a, hexVal b with
    | Option.some ha, Option.some hb => Sum.inl (ha * 16 + hb) :: pctTokenize rest
    | _, _ => Sum.inr '%' :: pctTokenize (a :: b :: rest)
  | c :: rest => Sum.inr c :: pctTokenize rest
  | [] => []

/-- The Unicode replacement character U+FFFD. -/
def replChar : Char := Char.ofNat 0xfffd

/-- Whether a byte is a UTF-8 continuation byte. -/
def contOk (b : Nat) : Bool := decide (0x80 ≤ b ∧ b ≤ 0xbf)

/-- Valid range of the second byte of a three-byte UTF-8 sequence. -/
def cont2Ok (b b2 : Nat) : Bool :=
  if b = 0xe0 then decide (0xa0 ≤ b2 ∧ b2 ≤ 0xbf)
  else if b = 0xed then decide (0x80 ≤ b2 ∧ b2 ≤ 0x9f)
  else contOk b2

/-- Valid range of the second byte of a four-byte UTF-8 sequence. -/
def cont3Ok (b b2 : Nat) : Bool :=
  if b = 0xf0 then decide (0x90 ≤ b2 ∧ b2 ≤ 0xbf)
  else if b = 0xf4 then decide (0x80 ≤ b2 ∧ b2 ≤ 0x8f)
  else contOk b2

/-- UTF-8 decoding of a byte run with the replace error handler (one
replacement character per rejected maximal prefix), fuelled by the length of
the input so that the recursion is structural. -/
def utf8DecodeAux : Nat → List Nat → List Char
  | 0, _ => []
  | _, [] => []
  | fuel + 1, b :: rest =>
    if b < 0x80 then Char.ofNat b :: utf8DecodeAux fuel rest
    else if decide (0xc2 ≤ b ∧ b ≤ 0xdf) then
      match rest with
      | [] => [replChar]
      | b2 :: rest2 =>
        if contOk b2 then Char.ofNat ((b - 0xc0) * 64 + (b2 - 0x80)) :: utf8DecodeAux fuel rest2
        else replChar :: utf8DecodeAux fuel rest
    else if decide (0xe0 ≤ b ∧ b ≤ 0xef) then
      match rest with
      | [] => [replChar]
      | b2 :: rest2 =>
        if cont2Ok b b2 then
          match rest2 with
          | [] => [replChar]
          | b3 :: rest3 =>
            if contOk b3 then
              Char.ofNat ((b - 0xe0) * 4096 + (b2 - 0x80) * 64 + (b3 - 0x80))
                :: utf8DecodeAux fuel rest3
            else replChar :: utf8DecodeAux fuel rest2
        else replChar :: utf8DecodeAux fuel rest
    else if decide (0xf0 ≤ b ∧ b ≤ 0xf4) then
      match rest with
      | [] => [replChar]
      | b2 :: rest2 =>
        if cont3Ok b b2 then
          match rest2 with
          | [] => [replChar]
          | b3 :: rest3 =>
            if contOk b3 then
              match rest3 with
              | [] => [replChar]
              | b4 :: rest4 =>
                if contOk b4 then
                  Char.ofNat ((b - 0xf0) * 262144 + (b2 - 0x80) * 4096
                    + (b3 - 0x80) * 64 + (b4 - 0x80)) :: utf8DecodeAux fuel rest4
                else replChar :: utf8DecodeAux fuel rest3
            else replChar :: utf8DecodeAux fuel rest2
        else replChar :: utf8DecodeAux fuel rest
    else replChar :: utf8DecodeAux fuel rest

/-- UTF-8 decoding of a full byte run. -/
def utf8Decode (bs : List Nat) : List Char := utf8DecodeAux bs.length bs

/-- Second pass of `urllib.parse.unquote`: consecutive escaped bytes are
accumulated and decoded together as UTF-8; literal characters flush the
pending run. -/
def unquoteAux : List (Sum Nat Char) → List Nat → List Char
  | [], acc => utf8Decode acc.reverse
  | Sum.inl b :: rest, acc => unquoteAux rest (b :: acc)
  | Sum.inr c :: rest, acc => utf8Decode acc.reverse ++ c :: unquoteAux rest []

/-- Models `urllib.parse.unquote` on a character list. -/
def unquoteChars (cs : List Char) : List Char :=
  unquoteAux (pctTokenize cs) []

/-! ## The mention extractor (`src/utils/networks.py`)

`_MENTION_PATTERN` is the regex
`\[[^\]]+\]\((?!https?://|mailto:|capacities://)([^)]+)\)` compiled with
`re.IGNORECASE`. Matching it at a fixed position is deterministic (the two
greedy character classes admit no backtracking), which `matchAt` implements
directly; `findall`'s leftmost, non-overlapping scan is `mentionFindAll`. -/

/-- Case-insensitive literal prefix test (the pattern's literals are ASCII
lowercase, so `re.IGNORECASE` amounts to lowercasing the subject). -/
def lowerPrefixMatches : List Char → List Char → Bool
  | [], _ => true
  | _ :: _, [] => false
  | p :: ps, c :: cs => p == c.toLower && lowerPrefixMatches ps cs

/-- The negative lookahead of `_MENTION_PATTERN`: the link target begins
with an excluded external scheme. -/
def excludedScheme (cs : List Char) : Bool :=
  lowerPrefixMatches "http://".data cs || lowerPrefixMatches "https://".data cs
    || lowerPrefixMatches "mailto:".data cs || lowerPrefixMatches "capacities://".data cs

/-- Attempt to match `_MENTION_PATTERN` at the head of the input; on success
return the captured target and the remainder of the input after the match. -/
def matchAt : List Char → Option (List Char × List Char)
  | '[' :: cs1 =>
    let label := cs1.takeWhile (fun c => c != ']')
    match cs1.dropWhile (fun c => c != ']') with
    | ']' :: '(' :: cs4 =>
      if label.isEmpty then Option.none
      else if excludedScheme cs4 then Option.none
      else
        let target := cs4.takeWhile (fun c => c != ')')
        match cs4.dropWhile (fun c => c != ')') with
        | ')' :: rest => if target.isEmpty then Option.none else Option.some (target, rest)
        | _ => Option.none
    | _ => Option.none
  | _ => Option.none

/-- The scan of `re.findall`: try the pattern at each position, consuming
each match, fuelled by the input length (a match always consumes at least
one character, so this fuel is sufficient). -/
def findAllAux : Nat → List Char → List (List Char)
  | 0, _ => []
  | _, [] => []
  | fuel + 1, c :: cs =>
    match matchAt (c :: cs) with
    | Option.some (t, rest) => t :: findAllAux fuel rest
    | Option.none => findAllAux fuel cs

/-- All captured targets of `_MENTION_PATTERN.findall` in order. -/
def mentionFindAll (cs : List Char) : List (List Char) :=
  findAllAux cs.length cs

/-- Whether a file name, lowercased, ends with the document extension, as
`filename.lower().endswith(".md")` checks. -/
def endsWithMd (cs : List Char) : Bool :=
  ".md".data.isSuffixOf (cs.map Char.toLower)

/-- The per-match normalization of `extract_object_mentions`: strip
whitespace, truncate at the first `#` then the first `?`, take the final
POSIX path component, require the `.md` extension, percent-decode. `none`
when the match is discarded by `continue`. -/
def processMention (target : List Char) : Option String :=
  let cleaned := pyStrip target
  if cleaned.isEmpty then Option.none
  else
    let c1 := if cleaned.contains '#' then cleaned.takeWhile (fun c => c != '#') else cleaned
    let c2 := if c1.contains '?' then c1.takeWhile (fun c => c != '?') else c1
    let filename := posixName c2
    if endsWithMd filename then Option.some (String.mk (unquoteChars filename))
    else Option.none

/-- The accumulation loop of `extract_object_mentions`: processed mentions
are appended unless their percent-decoded value was already seen. -/
def extractLoop : List (List Char) → List String → List String
  | [], _ => []
  | m :: ms, seen =>
    match processMention m with
    | Option.none => extractLoop ms seen
    | Option.some f => if f ∈ seen then extractLoop ms seen else f :: extractLoop ms (f :: seen)

/-- The mention extractor `extract_object_mentions` of
`src/utils/networks.py`. -/
def extract_object_mentions (text_content : String) : List String :=
  if text_content = "" then []
  else extractLoop (mentionFindAll text_content.data) []

/-- The processed mention stream before deduplication, one entry per
qualifying pattern match, in match order. -/
def rawMentions (text_content : String) : List String :=
  (mentionFindAll text_content.data).filterMap processMention

/-- Order-preserving deduplication keeping the first occurrence of each
value — an independent specification of the extractor's dedup step. -/
def firstOccDedup : List String → List String
  | [] => []
  | x :: xs => x :: firstOccDedup (xs.filter (fun y => y ≠ x))
termination_by l => l.length
decreasing_by
  exact Nat.lt_succ_of_le (List.length_filter_le _ _)

/-! ## The record extractor (`src/utils/data.py`)

The external `yaml.safe_load` is abstracted as a parameter
`yaml : String → Except Unit PyValue` (`.error` models a raised
`yaml.YAMLError`); `pd.to_datetime(x, errors="raise")` is abstracted as
`td : PyValue → Except Unit (Option Timestamp)` (`.ok Option.none` models a
returned `NaT`, `.error` a raised exception). -/

/-- One record as a row of the dataframe built by
`parse_capacities_export_zip`, before the `date` column is added. -/
structure RawRecord where
  object_type : PyValue
  title : PyValue
  properties : List (String × PyValue)
  text_content : String
  file_name : String

/-- One row of the dataframe passed to `build_object_graph`. `file_name` is
`none` when the cell is not a string; `date` is `none` for `NaT`. -/
structure Record where
  object_type : PyValue
  title : PyValue
  properties : PyValue
  text_content : String
  file_name : Option String
  date : Option Timestamp

/-- The header-parsing step of `parse_capacities_export_zip`: a raised
`yaml.YAMLError` is absorbed into an empty mapping by the bare `except`; a
successfully parsed mapping is used as-is; any other successfully parsed
value (None, a scalar, a list) makes the subsequent `properties.get("type", "")`
raise `AttributeError`, modelled by `.error`. -/
def yamlToProps : Except Unit PyValue → Except Unit (List (String × PyValue))
  | .error _ => .ok []
  | .ok (.dict kvs) => .ok kvs
  | .ok _ => .error ()

/-- Processing of one archive entry by `parse_capacities_export_zip`:
split the content on `---` with at most two splits; when fewer than three
parts result the document is skipped (`.ok none`); otherwise build the row. -/
def parseDocument (yaml : String → Except Unit PyValue) (name content : String) :
    Except Unit (Option RawRecord) :=
  match pySplitAux "---".data 2 content.data with
  | [_, p1, p2] =>
    match yamlToProps (yaml (String.mk p1)) with
    | .error e => .error e
    | .ok kvs =>
      .ok (Option.some
        { object_type := (getA kvs "type").getD (.str "")
          title := (getA kvs "title").getD (.str (String.mk (stemOf name.data)))
          properties := kvs
          text_content := String.mk (pyStrip p2)
          file_name := String.mk (posixName name.data) })
  | _ => .ok Option.none

/-- The first loop of `parse_capacities_export_zip` over the archive's
`.md` entries, collecting rows in order; an exception aborts the whole
parse. -/
def parseEntries (yaml : String → Except Unit PyValue) :
    List (String × String) → Except Unit (List RawRecord)
  | [] => .ok []
  | (n, c) :: rest =>
    match parseDocument yaml n c with
    | .error e => .error e
    | .ok Option.none => parseEntries yaml rest
    | .ok (Option.some r) =>
      match parseEntries yaml rest with
      | .error e => .error e
      | .ok rs => .ok (r :: rs)

/-- The date-deriving loop of `parse_capacities_export_zip`: look up the
`date` property (defaulting to None), attempt `pd.to_datetime`, and absorb
any raised exception into `NaT`. -/
def applyDate (td : PyValue → Except Unit (Option Timestamp)) (r : RawRecord) : Record :=
  { object_type := r.object_type
    title := r.title
    properties := .dict r.properties
    text_content := r.text_content
    file_name := Option.some r.file_name
    date :=
      match td ((getA r.properties "date").getD .null) with
      | .ok v => v
      | .error _ => Option.none }

/-- The record extractor `parse_capacities_export_zip` of
`src/utils/data.py`, over an in-memory list of (entry name, decoded text)
pairs in archive order. -/
def parse_capacities_export_zip (yaml : String → Except Unit PyValue)
    (td : PyValue → Except Unit (Option Timestamp))
    (entries : List (String × String)) : Except Unit (List Record) :=
  match parseEntries yaml (entries.filter (fun e => pyEndsWith e.1 ".md")) with
  | .error e => .error e
  | .ok raws => .ok (raws.map (applyDate td))

/-! ## The graph builder (`src/utils/networks.py`) -/

/-- Node attributes: a key-unique, insertion-ordered attribute mapping. -/
abbrev Attrs := List (String × PyValue)

/-- The directed graph built by `build_object_graph`: insertion-ordered
nodes with attribute mappings, and edges keyed by (source, target) carrying
the integer `weight`. -/
structure Graph where
  nodes : List (String × Attrs)
  edges : List ((String × String) × Nat)

/-- The guard `if not isinstance(file_name, str) or not file_name: continue`
of both passes: `some` of the name exactly when it is a non-empty string. -/
def validName : Option String → Option String
  | Option.some s => if s = "" then Option.none else Option.some s
  | Option.none => Option.none

/-- Normalization of one node attribute when `normalize_dict_attrs` is set:
dict values are replaced by their JSON text, and a `TypeError` from
`json.dumps` propagates. -/
def serializeAttr (kv : String × PyValue) : Except Unit (String × PyValue) :=
  match kv.2 with
  | .dict kvs =>
    match jsonDumps (.dict kvs) with
    | Option.some s => .ok (kv.1, .str s)
    | Option.none => .error ()
  | _ => .ok kv

/-- Normalization of a whole attribute mapping, in order. -/
def serializeAttrs : Attrs → Except Unit Attrs
  | [] => .ok []
  | kv :: rest =>
    match serializeAttr kv with
    | .error e => .error e
    | .ok kv2 =>
      match serializeAttrs rest with
      | .error e => .error e
      | .ok rest2 => .ok (kv2 :: rest2)

/-- The node attributes `build_object_graph` computes for one row: the
`title`/`object_type`/`properties`/`date` mapping with None values removed,
the `date` deleted when it is `NaT` and rendered via `isoformat` otherwise,
then dict values JSON-serialized when normalization is on. -/
def rowNodeAttrs (norm : Bool) (r : Record) : Except Unit Attrs :=
  let base := [("title", r.title), ("object_type", r.object_type),
    ("properties", r.properties)].filter (fun kv => !kv.2.isNull)
  let withDate :=
    match r.date with
    | Option.none => base
    | Option.some t => base ++ [("date", PyValue.str t.isoformat)]
  if norm then serializeAttrs withDate else .ok withDate

/-- Models `networkx.DiGraph.add_node` with attributes: a new key is
appended; an existing node has its attribute mapping updated in place. -/
def addNode (ns : List (String × Attrs)) (n : String) (a : Attrs) : List (String × Attrs) :=
  match ns with
  | [] => [(n, a)]
  | (k, old) :: rest =>
    if k = n then (k, dictUpdate old a) :: rest
    else (k, old) :: addNode rest n a

/-- The node-registration pass of `build_object_graph`, threading the node
list and the `file_lookup` key list. -/
def pass1 (norm : Bool) : List Record → List (String × Attrs) → List String →
    Except Unit (List (String × Attrs) × List String)
  | [], ns, lk => .ok (ns, lk)
  | r :: rs, ns, lk =>
    match validName r.file_name with
    | Option.none => pass1 norm rs ns lk
    | Option.some n =>
      match rowNodeAttrs norm r with
      | .error e => .error e
      | .ok a => pass1 norm rs (addNode ns n a) (setdefaultL lk n)

/-- One `Counter` increment: bump the first entry with this key, else append
the key with count 1 (matching `Counter` insertion order). -/
def counterAdd (c : List (String × Nat)) (x : String) : List (String × Nat) :=
  match c with
  | [] => [(x, 1)]
  | (k, n) :: rest => if k = x then (k, n + 1) :: rest else (k, n) :: counterAdd rest x

/-- The mention multiset of one row: `Counter(extract_object_mentions(text))`
then, for every string-valued property, each of that string's extracted
mentions incremented once (`mention_counts[mention] += 1`). Non-dict
`properties` contribute nothing (the `or {}` and `isinstance` guards). -/
def rowMentionCounts (r : Record) : List (String × Nat) :=
  let c := (extract_object_mentions r.text_content).foldl counterAdd []
  match r.properties with
  | .dict kvs =>
    kvs.foldl
      (fun c kv =>
        match kv.2 with
        | .str s => (extract_object_mentions s).foldl counterAdd c
        | _ => c) c
  | _ => c

/-- Increment the weight of an edge, creating it with the given weight when
absent (`has_edge` / `add_edge` of `build_object_graph`). -/
def edgeUpdate (es : List ((String × String) × Nat)) (k : String × String) (w : Nat) :
    List ((String × String) × Nat) :=
  match es with
  | [] => [(k, w)]
  | (k0, w0) :: rest =>
    if k0 = k then (k0, w0 + w) :: rest
    else (k0, w0) :: edgeUpdate rest k w

/-- The edge creation of one row: each counted target is skipped when it has
no registered node or equals the source, and otherwise accumulated. -/
def addRowEdges (lookup : List String) (src : String)
    (es : List ((String × String) × Nat)) (counts : List (String × Nat)) :
    List ((String × String) × Nat) :=
  counts.foldl
    (fun es tw =>
      if tw.1 ∈ lookup then
        if src = tw.1 then es else edgeUpdate es (src, tw.1) tw.2
      else es) es

/-- The edge pass of `build_object_graph`. -/
def pass2 (lookup : List String) : List Record → List ((String × String) × Nat) →
    List ((String × String) × Nat)
  | [], es => es
  | r :: rs, es =>
    match validName r.file_name with
    | Option.none => pass2 lookup rs es
    | Option.some src => pass2 lookup rs (addRowEdges lookup src es (rowMentionCounts r))

/-- The graph builder `build_object_graph` of `src/utils/networks.py`:
register all nodes, then resolve edges against the completed node set. A
`TypeError` raised while serializing attributes propagates as `.error`. -/
def build_object_graph (rows : List Record) (norm : Bool) : Except Unit Graph :=
  match pass1 norm rows [] [] with
  | .error e => .error e
  | .ok (ns, lk) => .ok ⟨ns, pass2 lk rows []⟩

/-! ## Specification-side observers -/

/-- The identifiers of the rows that register a node, in row order. -/
def validNames (rows : List Record) : List String :=
  rows.filterMap (fun r => validName r.file_name)

/-- The string-valued property values of a row, in mapping order. -/
def propStrings (r : Record) : List String :=
  match r.properties with
  | .dict kvs =>
    kvs.filterMap (fun kv =>
      match kv.2 with
      | .str s => Option.some s
      | _ => Option.none)
  | _ => []

/-- The number of scanned strings of one row (its body, and each
string-valued property value) that mention the target at least once. -/
def fieldCount (r : Record) (t : String) : Nat :=
  (if t ∈ extract_object_mentions r.text_content then 1 else 0)
    + (propStrings r).countP (fun v => decide (t ∈ extract_object_mentions v))

/-- The total of `fieldCount` over every row whose valid identifier equals
the source. -/
def totalFieldCount (rows : List Record) (s t : String) : Nat :=
  ((rows.filter (fun r => validName r.file_name = Option.some s)).map
    (fun r => fieldCount r t)).sum

/-- The weight of the edge from `s` to `t`, when that edge exists. -/
def edgeWeight (g : Graph) (s t : String) : Option Nat :=
  getA g.edges (s, t)

/-- The node identifiers of a graph. -/
def nodeKeys (g : Graph) : List String :=
  g.nodes.map Prod.fst

/-- Reference-occurrence count as claim C1 words it: every qualifying
pattern match in the body and in each string-valued property counts once
per occurrence (no per-string deduplication). Stated from the claim, to be
compared with the implementation's weights. -/
def specOccurrenceCount (r : Record) (t : String) : Nat :=
  (rawMentions r.text_content).count t
    + ((propStrings r).map (fun v => (rawMentions v).count t)).sum

/-- Observer: the value of one attribute of one node of a built graph. -/
def nodeAttr (res : Except Unit Graph) (n k : String) : Option PyValue :=
  match res with
  | .ok g =>
    match getA g.nodes n with
    | Option.some a => getA a k
    | Option.none => Option.none
  | .error _ => Option.none

/-- The count a `Counter` reports for a key (`0` when absent). -/
def countLookup (c : List (String × Nat)) (t : String) : Nat :=
  (getA c t).getD 0

/-- Add a count to an optional accumulated weight: adding `0` leaves the
edge as it was (absent edges stay absent). -/
def optAdd (o : Option Nat) (n : Nat) : Option Nat :=
  if n = 0 then o else Option.some (o.getD 0 + n)

/-- One `add_node` step on an optional existing attribute mapping: update
when present, install when absent. -/
def mergeOpt (o : Option Attrs) (a : Attrs) : Option Attrs :=
  match o with
  | Option.some old => Option.some (dictUpdate old a)
  | Option.none => Option.some a

/-- The node attributes of a run of rows, failing where any row's
serialization fails. -/
def rowAttrsAll (norm : Bool) : List Record → Except Unit (List Attrs)
  | [] => .ok []
  | r :: rs =>
    match rowNodeAttrs norm r with
    | .error e => .error e
    | .ok a =>
      match rowAttrsAll norm rs with
      | .error e => .error e
      | .ok as => .ok (a :: as)

/-- Whether one attribute value survives normalization: dict values must be
JSON-serializable, all other values pass through. -/
def attrOk (v : PyValue) : Bool :=
  match v with
  | .dict _ => (jsonDumps v).isSome
  | _ => true

/-- Whether every attribute a row contributes survives normalization. -/
def rowAttrsOk (r : Record) : Bool :=
  attrOk r.title && attrOk r.object_type && attrOk r.properties

/-- The graph of a successful build (the empty graph on error), convenient
for stating concrete facts about built graphs. -/
def graphOf (res : Except Unit Graph) : Graph :=
  match res with
  | .ok g => g
  | .error _ => ⟨[], []⟩

/-- The header segment of a document whose content splits into three parts
(the empty string otherwise). -/
def headerPart (content : String) : String :=
  match pySplitAux "---".data 2 content.data with
  | [_, p1, _] => String.mk p1
  | _ => ""

/-! ## Concrete instances used by counterexamples and witnesses -/

/-- A note whose body mentions the same existing target twice. -/
def exampleMeeting : Record :=
  { object_type := .str "note", title := .str "Meeting", properties := .dict []
    text_content := "See [Corey](Corey Shaya.md) for details. And [Corey](Corey Shaya.md) again."
    file_name := Option.some "Meeting.md", date := Option.none }

/-- The person record the meeting note points at. -/
def examplePerson : Record :=
  { object_type := .str "person", title := .str "Corey Shaya", properties := .dict []
    text_content := "", file_name := Option.some "Corey Shaya.md", date := Option.none }

/-- A record whose properties mapping holds a YAML-parsed date object — a
value `json.dumps` cannot serialize. -/
def exampleDateProps : Record :=
  { object_type := .str "", title := .str "t", properties := .dict [("d", .date 0)]
    text_content := "", file_name := Option.some "A.md", date := Option.none }

/-- A record with serializable attributes throughout. -/
def exampleSerializable : Record :=
  { object_type := .str "note", title := .str "B"
    properties := .dict [("k", .str "v"), ("n", .int 3)]
    text_content := "", file_name := Option.some "B.md", date := Option.none }

/-- First of two records sharing an identifier. -/
def exampleDupFirst : Record :=
  { object_type := .str "", title := .str "T1", properties := .dict []
    text_content := "", file_name := Option.some "A.md", date := Option.some ⟨5⟩ }

/-- Second of two records sharing an identifier, with a different title and
no timestamp. -/
def exampleDupSecond : Record :=
  { object_type := .str "", title := .str "T2", properties := .dict []
    text_content := "", file_name := Option.some "A.md", date := Option.none }

/-- A record that mentions itself and an existing other record. -/
def exampleSelf : Record :=
  { object_type := .str "note", title := .str "Self", properties := .dict []
    text_content := "see [me](Self.md) and [other](Other.md)"
    file_name := Option.some "Self.md", date := Option.none }

/-- The other record `exampleSelf` points at. -/
def exampleOther : Record :=
  { object_type := .str "note", title := .str "Other", properties := .dict []
    text_content := "", file_name := Option.some "Other.md", date := Option.none }

/-- A record mentioning one target in its body and in each of two distinct
string-valued property values. -/
def exampleAccum : Record :=
  { object_type := .str "note", title := .str "S"
    properties := .dict [("a", .str "see [y](T.md) and [y2](T.md)"), ("b", .str "[z](T.md)"),
      ("n", .int 7)]
    text_content := "body [x](T.md) twice [x](T.md)"
    file_name := Option.some "S.md", date := Option.none }

/-- The target record `exampleAccum` points at. -/
def exampleTarget : Record :=
  { object_type := .str "note", title := .str "T", properties := .dict []
    text_content := "", file_name := Option.some "T.md", date := Option.none }

/-- A raw record whose `date` property is a time range that
`pd.to_datetime` rejects. -/
def exampleRangeDate : RawRecord :=
  { object_type := .str "meeting", title := .str "Standup"
    properties := [("date", .str "2025-01-27 11:00 - 11:30")]
    text_content := "notes", file_name := "Standup.md" }

/-- Models `yaml.safe_load` returning None, as it does for a blank header
segment. -/
def yamlNullOracle : String → Except Unit PyValue := fun _ => .ok .null

/-- Models `yaml.safe_load` raising `yaml.YAMLError`, as it does for a
syntactically invalid header segment. -/
def yamlErrOracle : String → Except Unit PyValue := fun _ => .error ()

/-- Models `yaml.safe_load` on the single header `"t: v"` exercised by the
C6 counterexample. -/
def yamlTVOracle : String → Except Unit PyValue := fun s =>
  if s = "t: v" then .ok (.dict [("t", .str "v")]) else .ok .null

/-- Models `pd.to_datetime` returning `NaT` (as it does for None input). -/
def tdNaT : PyValue → Except Unit (Option Timestamp) := fun _ => .ok Option.none

/-- Models `pd.to_datetime(x, errors="raise")` raising, as it does for an
ambiguous time-range string. -/
def tdRaise : PyValue → Except Unit (Option Timestamp) := fun _ => .error ()

/-- The row the C9 witness feeds to the graph builder. -/
def exampleRangeRecord : Record := applyDate tdRaise exampleRangeDate

/-- A document whose header segment is invalid YAML (the parse error is
absorbed into an empty mapping). -/
def exampleBadYamlContent : String := "---\n[unclosed\n---\nbody"

/-! # Lemmas about lookups, counters and edge accumulation -/

theorem getA_eq_none_iff {κ β : Type} [DecidableEq κ] (l : List (κ × β)) (k : κ) :
    getA l k = Option.none ↔ k ∉ l.map Prod.fst := by
  induction l with
  | nil => simp [getA]
  | cons kv rest ih =>
    obtain ⟨k0, v0⟩ := kv
    by_cases h : k0 = k
    · subst h; simp [getA]
    · rw [List.map_cons, List.mem_cons]
      simp only [getA, if_neg h, ih]
      have h2 : ¬k = k0 := Ne.symm h
      tauto

theorem getA_isSome_iff {κ β : Type} [DecidableEq κ] (l : List (κ × β)) (k : κ) :
    (getA l k).isSome = true ↔ k ∈ l.map Prod.fst := by
  rw [Option.isSome_iff_ne_none, ne_eq, getA_eq_none_iff, not_not]

theorem getA_edgeUpdate (es : List ((String × String) × Nat)) (k k2 : String × String)
    (w : Nat) :
    getA (edgeUpdate es k w) k2 =
      if k2 = k then Option.some ((getA es k).getD 0 + w) else getA es k2 := by
  induction es with
  | nil =>
    by_cases h : k2 = k
    · subst h; simp [edgeUpdate, getA]
    · simp [edgeUpdate, getA, h, Ne.symm h]
  | cons e rest ih =>
    obtain ⟨k0, w0⟩ := e
    by_cases h0 : k0 = k
    · subst h0
      by_cases h2 : k2 = k0
      · subst h2; simp [edgeUpdate, getA]
      · simp [edgeUpdate, getA, h2, Ne.symm h2]
    · by_cases h2 : k0 = k2
      · subst h2
        simp [edgeUpdate, getA, h0, ih, Ne.symm h0]
      · simp [edgeUpdate, getA, h0, h2, ih]

theorem countLookup_cons (k : String) (w : Nat) (rest : List (String × Nat)) (t : String) :
    countLookup ((k, w) :: rest) t = if k = t then w else countLookup rest t := by
  by_cases h : k = t <;> simp [countLookup, getA, h]

theorem countLookup_counterAdd (c : List (String × Nat)) (x t : String) :
    countLookup (counterAdd c x) t = countLookup c t + (if x = t then 1 else 0) := by
  induction c with
  | nil =>
    by_cases h : x = t <;> simp [counterAdd, countLookup, getA, h]
  | cons e rest ih =>
    obtain ⟨k, n⟩ := e
    by_cases hk : k = x
    · subst hk
      by_cases ht : k = t
      · subst ht; simp [counterAdd, countLookup_cons]
      · simp [counterAdd, countLookup_cons, ht]
    · by_cases ht : k = t
      · subst ht; simp [counterAdd, hk, countLookup_cons, Ne.symm hk]
      · simp [counterAdd, hk, countLookup_cons, ht, ih]

theorem countLookup_foldl_counterAdd (xs : List String) (c : List (String × Nat)) (t : String) :
    countLookup (xs.foldl counterAdd c) t = countLookup c t + xs.count t := by
  induction xs generalizing c with
  | nil => simp
  | cons x xs ih =>
    rw [List.foldl_cons, ih, countLookup_counterAdd, List.count_cons]
    by_cases h : x = t
    · subst h; simp; omega
    · simp [h, fun h2 : t = x => h h2.symm]

theorem counterAdd_keys (c : List (String × Nat)) (x : String) :
    (counterAdd c x).map Prod.fst =
      if x ∈ c.map Prod.fst then c.map Prod.fst else c.map Prod.fst ++ [x] := by
  induction c with
  | nil => simp [counterAdd]
  | cons e rest ih =>
    obtain ⟨k, n⟩ := e
    by_cases hk : k = x
    · subst hk; simp [counterAdd]
    · have hxk : ¬x = k := Ne.symm hk
      by_cases hx : x ∈ rest.map Prod.fst <;>
        simp [counterAdd, hk, ih, hxk, hx]

theorem counterAdd_nodupKeys (c : List (String × Nat)) (x : String)
    (h : (c.map Prod.fst).Nodup) : ((counterAdd c x).map Prod.fst).Nodup := by
  rw [counterAdd_keys]
  by_cases hx : x ∈ c.map Prod.fst
  · simpa [hx] using h
  · rw [if_neg hx]
    simp only [List.nodup_append, List.nodup_cons, List.not_mem_nil, not_false_iff,
      List.nodup_nil, and_true, true_and]
    refine ⟨h, ?_⟩
    intro a ha hax
    simp only [List.mem_singleton] at hax
    exact hx (hax ▸ ha)

theorem counterAdd_pos (c : List (String × Nat)) (x : String)
    (h : ∀ e ∈ c, 1 ≤ e.2) : ∀ e ∈ counterAdd c x, 1 ≤ e.2 := by
  induction c with
  | nil =>
    intro e he
    simp [counterAdd] at he
    subst he; simp
  | cons e0 rest ih =>
    obtain ⟨k, n⟩ := e0
    intro e he
    by_cases hk : k = x
    · subst hk
      simp [counterAdd] at he
      rcases he with he | he
      · subst he
        have := h (k, n) (by simp)
        simp only at this ⊢
        exact Nat.le_trans this (Nat.le_succ n)
      · exact h e (by simp [he])
    · simp [counterAdd, hk] at he
      rcases he with he | he
      · subst he; exact h (k, n) (by simp)
      · exact ih (fun e2 he2 => h e2 (by simp [he2])) e he

theorem foldl_counterAdd_nodupKeys (xs : List String) (c : List (String × Nat))
    (h : (c.map Prod.fst).Nodup) : ((xs.foldl counterAdd c).map Prod.fst).Nodup := by
  induction xs generalizing c with
  | nil => simpa using h
  | cons x xs ih => exact ih _ (counterAdd_nodupKeys _ _ h)

theorem foldl_counterAdd_pos (xs : List String) (c : List (String × Nat))
    (h : ∀ e ∈ c, 1 ≤ e.2) : ∀ e ∈ xs.foldl counterAdd c, 1 ≤ e.2 := by
  induction xs generalizing c with
  | nil => simpa using h
  | cons x xs ih => exact ih _ (counterAdd_pos _ _ h)

theorem optAdd_zero (o : Option Nat) : optAdd o 0 = o := by simp [optAdd]

theorem extractLoop_not_mem_seen (ms : List (List Char)) (seen : List String) :
    ∀ x ∈ extractLoop ms seen, x ∉ seen := by
  induction ms generalizing seen with
  | nil => simp [extractLoop]
  | cons m ms ih =>
    intro x hx
    cases hpm : processMention m with
    | none =>
      simp only [extractLoop, hpm] at hx
      exact ih seen x hx
    | some f =>
      simp only [extractLoop, hpm] at hx
      by_cases hf : f ∈ seen
      · rw [if_pos hf] at hx
        exact ih seen x hx
      · rw [if_neg hf] at hx
        rcases List.mem_cons.mp hx with hx | hx
        · subst hx; exact hf
        · intro hxs
          exact ih (f :: seen) x hx (List.mem_cons_of_mem _ hxs)

theorem extractLoop_nodup (ms : List (List Char)) (seen : List String) :
    (extractLoop ms seen).Nodup := by
  induction ms generalizing seen with
  | nil => simp [extractLoop]
  | cons m ms ih =>
    cases hpm : processMention m with
    | none => simp only [extractLoop, hpm]; exact ih seen
    | some f =>
      simp only [extractLoop, hpm]
      by_cases hf : f ∈ seen
      · rw [if_pos hf]; exact ih seen
      · rw [if_neg hf]
        refine List.nodup_cons.mpr ⟨?_, ih (f :: seen)⟩
        intro hmem
        exact extractLoop_not_mem_seen ms (f :: seen) f hmem (List.mem_cons_self f seen)

theorem extractLoop_eq_dedup (ms : List (List Char)) (seen : List String) :
    extractLoop ms seen =
      firstOccDedup ((ms.filterMap processMention).filter (fun f => decide (f ∉ seen))) := by
  induction ms generalizing seen with
  | nil => simp [extractLoop, firstOccDedup]
  | cons m ms ih =>
    cases hpm : processMention m with
    | none =>
      simp only [extractLoop, hpm, List.filterMap_cons_none hpm]
      exact ih seen
    | some f =>
      simp only [extractLoop, hpm, List.filterMap_cons_some hpm]
      by_cases hf : f ∈ seen
      · rw [if_pos hf, List.filter_cons_of_neg (by simpa using hf)]
        exact ih seen
      · rw [if_neg hf, List.filter_cons_of_pos (by simpa using hf), firstOccDedup,
          List.filter_filter, ih (f :: seen)]
        congr 1
        congr 1
        apply List.filter_congr
        intro x _
        by_cases h1 : x = f <;> by_cases h2 : x ∈ seen <;> simp [h1, h2]

theorem extract_eq_firstOccDedup (s : String) :
    extract_object_mentions s = firstOccDedup (rawMentions s) := by
  by_cases hs : s = ""
  · subst hs
    have h1 : extract_object_mentions "" = [] := rfl
    have h2 : rawMentions "" = [] := rfl
    rw [h1, h2, firstOccDedup]
  · rw [extract_object_mentions, if_neg hs, extractLoop_eq_dedup, rawMentions]
    congr 1
    apply List.filter_eq_self.mpr
    intro x _
    simp

theorem extract_nodup (s : String) : (extract_object_mentions s).Nodup := by
  by_cases hs : s = ""
  · subst hs; exact List.nodup_nil
  · rw [extract_object_mentions, if_neg hs]
    exact extractLoop_nodup _ _

theorem extract_count_eq_ite (v t : String) :
    (extract_object_mentions v).count t =
      if t ∈ extract_object_mentions v then 1 else 0 := by
  by_cases h : t ∈ extract_object_mentions v
  · rw [if_pos h]
    exact List.count_eq_one_of_mem (extract_nodup v) h
  · rw [if_neg h]
    exact List.count_eq_zero.mpr h

theorem sum_map_ite_eq_countP (t : String) (l : List String) :
    (l.map (fun v => if t ∈ extract_object_mentions v then 1 else 0)).sum
      = l.countP (fun v => decide (t ∈ extract_object_mentions v)) := by
  induction l with
  | nil => simp
  | cons x xs ih =>
    by_cases h : t ∈ extract_object_mentions x
    · simp [List.countP_cons, h, ih]
      omega
    · simp [List.countP_cons, h, ih]

theorem countLookup_propsFold (kvs : List (String × PyValue)) (c : List (String × Nat))
    (t : String) :
    countLookup
      (kvs.foldl
        (fun c kv =>
          match kv.2 with
          | .str s => (extract_object_mentions s).foldl counterAdd c
          | _ => c) c) t
      = countLookup c t
        + ((kvs.filterMap (fun kv =>
            match kv.2 with
            | .str s => Option.some s
            | _ => Option.none)).map
              (fun v => (extract_object_mentions v).count t)).sum := by
  induction kvs generalizing c with
  | nil => simp
  | cons kv kvs ih =>
    obtain ⟨k, v⟩ := kv
    cases v with
    | str s =>
      rw [List.foldl_cons]
      simp only [ih, countLookup_foldl_counterAdd, List.filterMap_cons, List.map_cons,
        List.sum_cons]
      omega
    | null => simpa using ih c
    | bool b => simpa using ih c
    | int n => simpa using ih c
    | date n => simpa using ih c
    | list xs => simpa using ih c
    | dict kvs2 => simpa using ih c

theorem propsFold_nodupKeys (kvs : List (String × PyValue)) (c : List (String × Nat))
    (h : (c.map Prod.fst).Nodup) :
    ((kvs.foldl
      (fun c kv =>
        match kv.2 with
        | .str s => (extract_object_mentions s).foldl counterAdd c
        | _ => c) c).map Prod.fst).Nodup := by
  induction kvs generalizing c with
  | nil => simpa using h
  | cons kv kvs ih =>
    obtain ⟨k, v⟩ := kv
    cases v with
    | str s => exact ih _ (foldl_counterAdd_nodupKeys _ _ h)
    | null => exact ih _ h
    | bool b => exact ih _ h
    | int n => exact ih _ h
    | date n => exact ih _ h
    | list xs => exact ih _ h
    | dict kvs2 => exact ih _ h

theorem propsFold_pos (kvs : List (String × PyValue)) (c : List (String × Nat))
    (h : ∀ e ∈ c, 1 ≤ e.2) :
    ∀ e ∈ kvs.foldl
      (fun c kv =>
        match kv.2 with
        | .str s => (extract_object_mentions s).foldl counterAdd c
        | _ => c) c, 1 ≤ e.2 := by
  induction kvs generalizing c with
  | nil => simpa using h
  | cons kv kvs ih =>
    obtain ⟨k, v⟩ := kv
    cases v with
    | str s => exact ih _ (foldl_counterAdd_pos _ _ h)
    | null => exact ih _ h
    | bool b => exact ih _ h
    | int n => exact ih _ h
    | date n => exact ih _ h
    | list xs => exact ih _ h
    | dict kvs2 => exact ih _ h

theorem countLookup_rowMentionCounts (r : Record) (t : String) :
    countLookup (rowMentionCounts r) t = fieldCount r t := by
  rw [rowMentionCounts, fieldCount, propStrings]
  have hbase : countLookup ((extract_object_mentions r.text_content).foldl counterAdd []) t
      = if t ∈ extract_object_mentions r.text_content then 1 else 0 := by
    rw [countLookup_foldl_counterAdd, extract_count_eq_ite]
    simp [countLookup, getA]
  cases hp : r.properties with
  | dict kvs =>
    rw [countLookup_propsFold, hbase]
    congr 1
    rw [← sum_map_ite_eq_countP]
    apply congrArg
    apply List.map_congr_left
    intro x _
    exact extract_count_eq_ite x t
  | null => simpa using hbase
  | bool b => simpa using hbase
  | int n => simpa using hbase
  | str s => simpa using hbase
  | date n => simpa using hbase
  | list xs => simpa using hbase

theorem rowMentionCounts_nodupKeys (r : Record) :
    ((rowMentionCounts r).map Prod.fst).Nodup := by
  rw [rowMentionCounts]
  have hbase : (((extract_object_mentions r.text_content).foldl counterAdd []).map
      Prod.fst).Nodup :=
    foldl_counterAdd_nodupKeys _ _ (by simp)
  cases r.properties with
  | dict kvs => exact propsFold_nodupKeys kvs _ hbase
  | null => exact hbase
  | bool b => exact hbase
  | int n => exact hbase
  | str s => exact hbase
  | date n => exact hbase
  | list xs => exact hbase

theorem rowMentionCounts_pos (r : Record) :
    ∀ e ∈ rowMentionCounts r, 1 ≤ e.2 := by
  rw [rowMentionCounts]
  have hbase : ∀ e ∈ (extract_object_mentions r.text_content).foldl counterAdd [], 1 ≤ e.2 :=
    foldl_counterAdd_pos _ _ (by simp)
  cases r.properties with
  | dict kvs => exact propsFold_pos kvs _ hbase
  | null => exact hbase
  | bool b => exact hbase
  | int n => exact hbase
  | str s => exact hbase
  | date n => exact hbase
  | list xs => exact hbase

theorem optAdd_optAdd (o : Option Nat) (a b : Nat) :
    optAdd (optAdd o a) b = optAdd o (a + b) := by
  by_cases ha : a = 0
  · subst ha; simp [optAdd]
  · by_cases hb : b = 0
    · subst hb; simp [optAdd, ha]
    · simp [optAdd, ha, hb]
      omega

theorem countLookup_eq_zero_of_not_mem (c : List (String × Nat)) (t : String)
    (h : t ∉ c.map Prod.fst) : countLookup c t = 0 := by
  rw [countLookup, (getA_eq_none_iff c t).mpr h]
  rfl

theorem getA_addRowEdges (lk : List String) (src : String) :
    ∀ (counts : List (String × Nat)) (es : List ((String × String) × Nat)) (s t : String),
      (counts.map Prod.fst).Nodup → (∀ e ∈ counts, 1 ≤ e.2) →
      getA (addRowEdges lk src es counts) (s, t) =
        if s = src ∧ t ∈ lk ∧ src ≠ t then optAdd (getA es (s, t)) (countLookup counts t)
        else getA es (s, t) := by
  intro counts
  induction counts with
  | nil =>
    intro es s t _ _
    simp only [addRowEdges, List.foldl_nil]
    have h0 : countLookup [] t = 0 := rfl
    rw [h0]
    split <;> simp [optAdd]
  | cons tw rest ih =>
    intro es s t hnd hpos
    obtain ⟨t1, w1⟩ := tw
    have hnd2 : (rest.map Prod.fst).Nodup := by
      rw [List.map_cons] at hnd; exact (List.nodup_cons.mp hnd).2
    have ht1 : t1 ∉ rest.map Prod.fst := by
      rw [List.map_cons] at hnd; exact (List.nodup_cons.mp hnd).1
    have hpos2 : ∀ e ∈ rest, 1 ≤ e.2 := fun e he => hpos e (List.mem_cons_of_mem _ he)
    have hw1 : 1 ≤ w1 := hpos (t1, w1) (List.mem_cons_self _ _)
    simp only [addRowEdges] at ih ⊢
    rw [List.foldl_cons]
    rw [ih _ s t hnd2 hpos2]
    simp only
    by_cases hcond : s = src ∧ t ∈ lk ∧ src ≠ t
    · rw [if_pos hcond, if_pos hcond]
      obtain ⟨hs, htlk, hst⟩ := hcond
      subst hs
      by_cases h1 : t = t1
      · subst h1
        have hw0 : w1 ≠ 0 := by omega
        rw [countLookup_cons, if_pos rfl, countLookup_eq_zero_of_not_mem rest t ht1,
          optAdd_zero, if_pos htlk, if_neg hst, getA_edgeUpdate, if_pos rfl]
        simp [optAdd, hw0]
      · rw [countLookup_cons, if_neg (Ne.symm h1)]
        by_cases h2 : t1 ∈ lk
        · rw [if_pos h2]
          by_cases h3 : s = t1
          · rw [if_pos h3]
          · rw [if_neg h3, getA_edgeUpdate, if_neg (by simp [Prod.mk.injEq, h1])]
        · rw [if_neg h2]
    · rw [if_neg hcond, if_neg hcond]
      by_cases h2 : t1 ∈ lk
      · by_cases h3 : src = t1
        · rw [if_pos h2, if_pos h3]
        · rw [if_pos h2, if_neg h3, getA_edgeUpdate, if_neg ?hne]
          case hne =>
            intro hkey
            rw [Prod.mk.injEq] at hkey
            exact hcond ⟨hkey.1, hkey.2 ▸ h2, hkey.2 ▸ h3⟩
      · rw [if_neg h2]

theorem totalFieldCount_cons_skip (r : Record) (rs : List Record) (s t : String)
    (h : validName r.file_name ≠ Option.some s) :
    totalFieldCount (r :: rs) s t = totalFieldCount rs s t := by
  rw [totalFieldCount, totalFieldCount, List.filter_cons_of_neg (by simpa using h)]

theorem totalFieldCount_cons_hit (r : Record) (rs : List Record) (s t : String)
    (h : validName r.file_name = Option.some s) :
    totalFieldCount (r :: rs) s t = fieldCount r t + totalFieldCount rs s t := by
  rw [totalFieldCount, totalFieldCount, List.filter_cons_of_pos (by simpa using h),
    List.map_cons, List.sum_cons]

theorem getA_pass2 (lk : List String) :
    ∀ (rows : List Record) (es : List ((String × String) × Nat)) (s t : String),
      getA (pass2 lk rows es) (s, t) =
        if t ∈ lk ∧ s ≠ t then optAdd (getA es (s, t)) (totalFieldCount rows s t)
        else getA es (s, t) := by
  intro rows
  induction rows with
  | nil =>
    intro es s t
    have h0 : totalFieldCount [] s t = 0 := rfl
    simp only [pass2, h0]
    split <;> simp [optAdd]
  | cons r rs ih =>
    intro es s t
    cases hv : validName r.file_name with
    | none =>
      simp only [pass2, hv]
      rw [ih es s t, totalFieldCount_cons_skip r rs s t (by rw [hv]; simp)]
    | some src =>
      simp only [pass2, hv]
      rw [ih _ s t,
        getA_addRowEdges lk src (rowMentionCounts r) es s t (rowMentionCounts_nodupKeys r)
          (rowMentionCounts_pos r),
        countLookup_rowMentionCounts]
      by_cases hs : s = src
      · subst hs
        rw [totalFieldCount_cons_hit r rs s t hv]
        by_cases hc : t ∈ lk ∧ s ≠ t
        · obtain ⟨h1, h2⟩ := hc
          rw [if_pos ⟨h1, h2⟩, if_pos ⟨rfl, h1, h2⟩, optAdd_optAdd, if_pos ⟨h1, h2⟩]
        · rw [if_neg hc,
            if_neg (show ¬(s = s ∧ t ∈ lk ∧ s ≠ t) from fun hx => hc ⟨hx.2.1, hx.2.2⟩),
            if_neg hc]
      · rw [totalFieldCount_cons_skip r rs s t (by rw [hv]; simp [Ne.symm hs])]
        rw [if_neg (show ¬(s = src ∧ t ∈ lk ∧ src ≠ t) from fun hx => hs hx.1)]

/-! # Lemmas about node registration -/

theorem setdefaultL_mem (lk : List String) (n x : String) :
    x ∈ setdefaultL lk n ↔ x ∈ lk ∨ x = n := by
  by_cases h : n ∈ lk
  · rw [setdefaultL, if_pos h]
    constructor
    · exact Or.inl
    · rintro (hx | rfl)
      · exact hx
      · exact h
  · rw [setdefaultL, if_neg h]
    simp

theorem addNode_keys (ns : List (String × Attrs)) (n : String) (a : Attrs) :
    (addNode ns n a).map Prod.fst =
      if n ∈ ns.map Prod.fst then ns.map Prod.fst else ns.map Prod.fst ++ [n] := by
  induction ns with
  | nil => simp [addNode]
  | cons e rest ih =>
    obtain ⟨k, old⟩ := e
    by_cases hk : k = n
    · subst hk; simp [addNode]
    · have hnk : ¬n = k := Ne.symm hk
      by_cases hn : n ∈ rest.map Prod.fst <;> simp [addNode, hk, ih, hnk, hn]

theorem getA_addNode (ns : List (String × Attrs)) (n m : String) (a : Attrs) :
    getA (addNode ns n a) m =
      if m = n then mergeOpt (getA ns n) a else getA ns m := by
  induction ns with
  | nil =>
    by_cases h : m = n
    · subst h; simp [addNode, getA, mergeOpt]
    · simp [addNode, getA, h, Ne.symm h]
  | cons e rest ih =>
    obtain ⟨k, old⟩ := e
    by_cases hk : k = n
    · subst hk
      by_cases hm : m = k
      · subst hm; simp [addNode, getA, mergeOpt]
      · simp [addNode, getA, hm, Ne.symm hm]
    · by_cases hm : m = k
      · subst hm
        simp [addNode, getA, hk, Ne.symm hk, ih]
      · simp [addNode, getA, hk, hm, Ne.symm hm, ih]

theorem validNames_cons_none (r : Record) (rs : List Record)
    (h : validName r.file_name = Option.none) :
    validNames (r :: rs) = validNames rs := by
  simp [validNames, List.filterMap_cons, h]

theorem validNames_cons_some (r : Record) (rs : List Record) (n : String)
    (h : validName r.file_name = Option.some n) :
    validNames (r :: rs) = n :: validNames rs := by
  simp [validNames, List.filterMap_cons, h]

theorem pass1_lookup_mem (norm : Bool) :
    ∀ (rows : List Record) (ns : List (String × Attrs)) (lk : List String)
      (out : List (String × Attrs) × List String),
      pass1 norm rows ns lk = .ok out →
      ∀ x, x ∈ out.2 ↔ x ∈ lk ∨ x ∈ validNames rows := by
  intro rows
  induction rows with
  | nil =>
    intro ns lk out h x
    simp only [pass1] at h
    cases h
    simp [validNames]
  | cons r rs ih =>
    intro ns lk out h x
    cases hv : validName r.file_name with
    | none =>
      simp only [pass1, hv] at h
      rw [ih ns lk out h x, validNames_cons_none r rs hv]
    | some n =>
      simp only [pass1, hv] at h
      cases ha : rowNodeAttrs norm r with
      | error e => rw [ha] at h; cases h
      | ok a =>
        rw [ha] at h
        rw [ih _ _ out h x, setdefaultL_mem, validNames_cons_some r rs n hv]
        simp only [List.mem_cons]
        tauto

theorem pass1_keys (norm : Bool) :
    ∀ (rows : List Record) (ns : List (String × Attrs)) (lk : List String)
      (out : List (String × Attrs) × List String),
      pass1 norm rows ns lk = .ok out →
      ns.map Prod.fst = lk → out.1.map Prod.fst = out.2 := by
  intro rows
  induction rows with
  | nil =>
    intro ns lk out h hkeys
    simp only [pass1] at h
    cases h
    exact hkeys
  | cons r rs ih =>
    intro ns lk out h hkeys
    cases hv : validName r.file_name with
    | none =>
      simp only [pass1, hv] at h
      exact ih ns lk out h hkeys
    | some n =>
      simp only [pass1, hv] at h
      cases ha : rowNodeAttrs norm r with
      | error e => rw [ha] at h; cases h
      | ok a =>
        rw [ha] at h
        refine ih _ _ out h ?_
        rw [addNode_keys, setdefaultL, hkeys]

theorem pass1_getA_nodes (norm : Bool) (n : String) :
    ∀ (rows : List Record) (ns : List (String × Attrs)) (lk : List String)
      (out : List (String × Attrs) × List String),
      pass1 norm rows ns lk = .ok out →
      ∃ as, rowAttrsAll norm (rows.filter (fun r => validName r.file_name = Option.some n))
          = .ok as
        ∧ getA out.1 n = as.foldl mergeOpt (getA ns n) := by
  intro rows
  induction rows with
  | nil =>
    intro ns lk out h
    simp only [pass1] at h
    cases h
    exact ⟨[], rfl, rfl⟩
  | cons r rs ih =>
    intro ns lk out h
    cases hv : validName r.file_name with
    | none =>
      simp only [pass1, hv] at h
      rw [List.filter_cons_of_neg (by simp [hv])]
      exact ih ns lk out h
    | some m =>
      simp only [pass1, hv] at h
      cases ha : rowNodeAttrs norm r with
      | error e => rw [ha] at h; cases h
      | ok a =>
        rw [ha] at h
        by_cases hmn : m = n
        · subst hmn
          rw [List.filter_cons_of_pos (by simp [hv])]
          obtain ⟨as, has, hfold⟩ := ih _ _ out h
          refine ⟨a :: as, ?_, ?_⟩
          · rw [rowAttrsAll, ha, has]
          · rw [hfold, List.foldl_cons, getA_addNode, if_pos rfl]
        · rw [List.filter_cons_of_neg (by simp [hv, hmn])]
          obtain ⟨as, has, hfold⟩ := ih _ _ out h
          refine ⟨as, has, ?_⟩
          rw [hfold, getA_addNode, if_neg (Ne.symm hmn)]

theorem pass1_ok (norm : Bool) :
    ∀ (rows : List Record) (ns : List (String × Attrs)) (lk : List String),
      (∀ r ∈ rows, ∃ a, rowNodeAttrs norm r = .ok a) →
      ∃ out, pass1 norm rows ns lk = .ok out := by
  intro rows
  induction rows with
  | nil => intro ns lk _; exact ⟨(ns, lk), rfl⟩
  | cons r rs ih =>
    intro ns lk h
    cases hv : validName r.file_name with
    | none =>
      obtain ⟨out, hout⟩ := ih ns lk (fun r2 h2 => h r2 (List.mem_cons_of_mem _ h2))
      exact ⟨out, by simp only [pass1, hv]; exact hout⟩
    | some m =>
      obtain ⟨a, ha⟩ := h r (List.mem_cons_self _ _)
      obtain ⟨out, hout⟩ :=
        ih (addNode ns m a) (setdefaultL lk m) (fun r2 h2 => h r2 (List.mem_cons_of_mem _ h2))
      refine ⟨out, ?_⟩
      simp only [pass1, hv, ha]
      exact hout

theorem serializeAttr_ok (k : String) (v : PyValue) (h : attrOk v = true) :
    ∃ kv2, serializeAttr (k, v) = .ok kv2 := by
  cases v with
  | dict kvs =>
    rw [attrOk] at h
    cases hj : jsonDumps (.dict kvs) with
    | none => rw [hj] at h; cases h
    | some s =>
      refine ⟨(k, .str s), ?_⟩
      simp only [serializeAttr]
      rw [hj]
  | null => exact ⟨(k, .null), rfl⟩
  | bool b => exact ⟨(k, .bool b), rfl⟩
  | int n => exact ⟨(k, .int n), rfl⟩
  | str s => exact ⟨(k, .str s), rfl⟩
  | date n => exact ⟨(k, .date n), rfl⟩
  | list xs => exact ⟨(k, .list xs), rfl⟩

theorem serializeAttrs_ok (l : Attrs) (h : ∀ kv ∈ l, attrOk kv.2 = true) :
    ∃ l2, serializeAttrs l = .ok l2 := by
  induction l with
  | nil => exact ⟨[], rfl⟩
  | cons kv rest ih =>
    obtain ⟨k, v⟩ := kv
    obtain ⟨kv2, hkv2⟩ := serializeAttr_ok k v (h (k, v) (List.mem_cons_self _ _))
    obtain ⟨l2, hl2⟩ := ih (fun kv h2 => h kv (List.mem_cons_of_mem _ h2))
    exact ⟨kv2 :: l2, by rw [serializeAttrs, hkv2, hl2]⟩

theorem serializeAttrs_keys (l l2 : Attrs) (h : serializeAttrs l = .ok l2) :
    l2.map Prod.fst = l.map Prod.fst := by
  induction l generalizing l2 with
  | nil =>
    simp only [serializeAttrs] at h
    cases h
    rfl
  | cons kv rest ih =>
    obtain ⟨k, v⟩ := kv
    simp only [serializeAttrs] at h
    cases ha : serializeAttr (k, v) with
    | error e => rw [ha] at h; cases h
    | ok kv2 =>
      rw [ha] at h
      cases hrest : serializeAttrs rest with
      | error e => rw [hrest] at h; cases h
      | ok rest2 =>
        rw [hrest] at h
        cases h
        have hk : kv2.1 = k := by
          cases v <;> simp only [serializeAttr] at ha
          case dict kvs =>
            cases hj : jsonDumps (.dict kvs) with
            | none => rw [hj] at ha; cases ha
            | some s => rw [hj] at ha; cases ha; rfl
          all_goals (cases ha; rfl)
        rw [List.map_cons, List.map_cons, hk, ih rest2 hrest]

theorem rowNodeAttrs_ok (norm : Bool) (r : Record)
    (h : norm = false ∨ rowAttrsOk r = true) :
    ∃ a, rowNodeAttrs norm r = .ok a := by
  cases norm with
  | false => exact ⟨_, rfl⟩
  | true =>
    rcases h with h | h
    · cases h
    · rw [rowAttrsOk, Bool.and_eq_true, Bool.and_eq_true] at h
      obtain ⟨⟨h1, h2⟩, h3⟩ := h
      have hbase : ∀ kv ∈ ([("title", r.title), ("object_type", r.object_type),
          ("properties", r.properties)].filter (fun kv => !kv.2.isNull)),
          attrOk kv.2 = true := by
        intro kv hkv
        have := List.mem_filter.mp hkv |>.1
        simp only [List.mem_cons, List.not_mem_nil, or_false] at this
        rcases this with h4 | h4 | h4 <;> (rw [h4]; assumption)
      rw [rowNodeAttrs]
      cases hd : r.date with
      | none =>
        apply serializeAttrs_ok
        exact hbase
      | some ts =>
        apply serializeAttrs_ok
        intro kv hkv
        rcases List.mem_append.mp hkv with hkv | hkv
        · exact hbase kv hkv
        · simp only [List.mem_singleton] at hkv
          rw [hkv]
          rfl

theorem rowNodeAttrs_false_ok (r : Record) : ∃ a, rowNodeAttrs false r = .ok a :=
  rowNodeAttrs_ok false r (Or.inl rfl)

theorem rowNodeAttrs_no_date (norm : Bool) (r : Record) (a : Attrs)
    (hd : r.date = Option.none) (h : rowNodeAttrs norm r = .ok a) :
    getA a "date" = Option.none := by
  rw [rowNodeAttrs, hd] at h
  have hkeys : a.map Prod.fst =
      ([("title", r.title), ("object_type", r.object_type),
        ("properties", r.properties)].filter (fun kv => !kv.2.isNull)).map Prod.fst := by
    cases norm with
    | false =>
      simp only [if_neg (by simp : ¬false = true)] at h
      cases h
      rfl
    | true =>
      simp only [if_pos rfl] at h
      exact serializeAttrs_keys _ a h
  apply (getA_eq_none_iff a "date").mpr
  rw [hkeys]
  intro hmem
  obtain ⟨kv, hkv, hfst⟩ := List.mem_map.mp hmem
  have := List.mem_filter.mp hkv |>.1
  simp only [List.mem_cons, List.not_mem_nil, or_false] at this
  rcases this with h4 | h4 | h4 <;> (rw [h4] at hfst; simp at hfst)

/-! # Lemmas connecting `build_object_graph` to its two passes -/

theorem build_ok_elim (rows : List Record) (norm : Bool) (g : Graph)
    (h : build_object_graph rows norm = .ok g) :
    ∃ ns lk, pass1 norm rows [] [] = .ok (ns, lk) ∧ g = ⟨ns, pass2 lk rows []⟩ := by
  rw [build_object_graph] at h
  cases hp : pass1 norm rows [] [] with
  | error e => rw [hp] at h; cases h
  | ok out =>
    obtain ⟨ns, lk⟩ := out
    rw [hp] at h
    cases h
    exact ⟨ns, lk, rfl, rfl⟩

theorem build_lookup_mem (rows : List Record) (norm : Bool) (ns : List (String × Attrs))
    (lk : List String) (hp : pass1 norm rows [] [] = .ok (ns, lk)) :
    ∀ x, x ∈ lk ↔ x ∈ validNames rows := by
  intro x
  have := pass1_lookup_mem norm rows [] [] (ns, lk) hp x
  simpa using this

theorem build_edgeWeight_aux (rows : List Record) (norm : Bool) (g : Graph) (s t : String)
    (h : build_object_graph rows norm = .ok g) :
    edgeWeight g s t =
      if s ≠ t ∧ t ∈ validNames rows ∧ 0 < totalFieldCount rows s t
      then Option.some (totalFieldCount rows s t) else Option.none := by
  obtain ⟨ns, lk, hp, hg⟩ := build_ok_elim rows norm g h
  subst hg
  rw [edgeWeight]
  show getA (pass2 lk rows []) (s, t) = _
  rw [getA_pass2]
  have hlk := build_lookup_mem rows norm ns lk hp
  have h0 : getA ([] : List ((String × String) × Nat)) (s, t) = Option.none := rfl
  by_cases hc : t ∈ lk ∧ s ≠ t
  · rw [if_pos hc, h0]
    obtain ⟨h1, h2⟩ := hc
    by_cases hT : totalFieldCount rows s t = 0
    · rw [hT, optAdd_zero, if_neg (fun hx => Nat.lt_irrefl 0 hx.2.2)]
    · rw [if_pos ⟨h2, (hlk t).mp h1, Nat.pos_of_ne_zero hT⟩]
      simp [optAdd, hT]
  · rw [if_neg hc, h0,
      if_neg (fun hx => hc ⟨(hlk t).mpr hx.2.1, hx.1⟩)]

theorem build_getA_nodes (rows : List Record) (norm : Bool) (g : Graph) (n : String)
    (h : build_object_graph rows norm = .ok g) :
    ∃ as, rowAttrsAll norm (rows.filter (fun r => validName r.file_name = Option.some n))
        = .ok as
      ∧ getA g.nodes n = as.foldl mergeOpt Option.none := by
  obtain ⟨ns, lk, hp, hg⟩ := build_ok_elim rows norm g h
  subst hg
  exact pass1_getA_nodes norm n rows [] [] (ns, lk) hp

theorem build_nodeKeys_mem (rows : List Record) (norm : Bool) (g : Graph)
    (h : build_object_graph rows norm = .ok g) :
    ∀ x, x ∈ nodeKeys g ↔ x ∈ validNames rows := by
  obtain ⟨ns, lk, hp, hg⟩ := build_ok_elim rows norm g h
  subst hg
  intro x
  rw [nodeKeys]
  show x ∈ ns.map Prod.fst ↔ _
  rw [pass1_keys norm rows [] [] (ns, lk) hp rfl]
  exact build_lookup_mem rows norm ns lk hp x

/-! # Edge-key origin lemmas -/

theorem edgeUpdate_keys_sub (es : List ((String × String) × Nat)) (k : String × String)
    (w : Nat) :
    ∀ k2 ∈ (edgeUpdate es k w).map Prod.fst, k2 ∈ es.map Prod.fst ∨ k2 = k := by
  induction es with
  | nil =>
    intro k2 h2
    simp [edgeUpdate] at h2
    exact Or.inr h2
  | cons e rest ih =>
    obtain ⟨k0, w0⟩ := e
    intro k2 h2
    by_cases hk : k0 = k
    · subst hk
      simp only [edgeUpdate, eq_self_iff_true, if_true, List.map_cons, List.mem_cons] at h2
      rw [List.map_cons, List.mem_cons]
      tauto
    · simp only [edgeUpdate, if_neg hk, List.map_cons, List.mem_cons] at h2
      rcases h2 with he | he
      · exact Or.inl (by rw [List.map_cons, List.mem_cons]; exact Or.inl he)
      · rcases ih k2 he with h3 | h3
        · exact Or.inl (by rw [List.map_cons, List.mem_cons]; exact Or.inr h3)
        · exact Or.inr h3

theorem addRowEdges_keys_sub (lk : List String) (src : String) :
    ∀ (counts : List (String × Nat)) (es : List ((String × String) × Nat)),
      ∀ k2 ∈ (addRowEdges lk src es counts).map Prod.fst,
        k2 ∈ es.map Prod.fst ∨ (k2.1 = src ∧ k2.2 ∈ lk ∧ src ≠ k2.2) := by
  intro counts
  induction counts with
  | nil =>
    intro es k2 h2
    simpa [addRowEdges] using Or.inl h2
  | cons tw rest ih =>
    intro es k2 h2
    obtain ⟨t1, w1⟩ := tw
    simp only [addRowEdges] at ih h2
    rw [List.foldl_cons] at h2
    simp only at h2
    rcases ih _ k2 h2 with h3 | h3
    · by_cases hl : t1 ∈ lk
      · rw [if_pos hl] at h3
        by_cases hs : src = t1
        · rw [if_pos hs] at h3
          exact Or.inl h3
        · rw [if_neg hs] at h3
          rcases edgeUpdate_keys_sub es (src, t1) w1 k2 h3 with h4 | h4
          · exact Or.inl h4
          · subst h4
            exact Or.inr ⟨rfl, hl, hs⟩
      · rw [if_neg hl] at h3
        exact Or.inl h3
    · exact Or.inr h3

theorem pass2_keys_sub (lk : List String) :
    ∀ (rows : List Record) (es : List ((String × String) × Nat)),
      ∀ k2 ∈ (pass2 lk rows es).map Prod.fst,
        k2 ∈ es.map Prod.fst ∨ (k2.1 ∈ validNames rows ∧ k2.2 ∈ lk ∧ k2.1 ≠ k2.2) := by
  intro rows
  induction rows with
  | nil =>
    intro es k2 h2
    simp only [pass2] at h2
    exact Or.inl h2
  | cons r rs ih =>
    intro es k2 h2
    cases hv : validName r.file_name with
    | none =>
      simp only [pass2, hv] at h2
      rcases ih es k2 h2 with h3 | h3
      · exact Or.inl h3
      · exact Or.inr ⟨by rw [validNames_cons_none r rs hv]; exact h3.1, h3.2⟩
    | some src =>
      simp only [pass2, hv] at h2
      rcases ih _ k2 h2 with h3 | h3
      · rcases addRowEdges_keys_sub lk src (rowMentionCounts r) es k2 h3 with h4 | h4
        · exact Or.inl h4
        · refine Or.inr ⟨?_, h4.2.1, h4.1 ▸ h4.2.2⟩
          rw [validNames_cons_some r rs src hv, h4.1]
          exact List.mem_cons_self _ _
      · exact Or.inr ⟨by rw [validNames_cons_some r rs src hv]; exact List.mem_cons_of_mem _ h3.1, h3.2⟩

/-! # Lemmas about the mention pattern's negative lookahead -/

theorem lowerPrefixMatches_takeWhile (pat : List Char) (q : Char → Bool) :
    ∀ cs : List Char, lowerPrefixMatches pat (cs.takeWhile q) = true →
      lowerPrefixMatches pat cs = true := by
  induction pat with
  | nil => intro cs _; rfl
  | cons p ps ih =>
    intro cs h
    cases cs with
    | nil => cases h
    | cons c cs2 =>
      rw [List.takeWhile_cons] at h
      by_cases hq : q c
      · rw [if_pos hq] at h
        rw [lowerPrefixMatches] at h ⊢
        rw [Bool.and_eq_true] at h ⊢
        exact ⟨h.1, ih cs2 h.2⟩
      · rw [if_neg hq] at h
        cases h

theorem excludedScheme_takeWhile_false (q : Char → Bool) (cs : List Char)
    (h : excludedScheme cs = false) : excludedScheme (cs.takeWhile q) = false := by
  by_contra hx
  rw [Bool.not_eq_false, excludedScheme, Bool.or_eq_true, Bool.or_eq_true,
    Bool.or_eq_true] at hx
  rw [excludedScheme, Bool.or_eq_false_iff, Bool.or_eq_false_iff,
    Bool.or_eq_false_iff] at h
  obtain ⟨⟨⟨h1, h2⟩, h3⟩, h4⟩ := h
  rcases hx with ((hx | hx) | hx) | hx
  · simp [lowerPrefixMatches_takeWhile _ q cs hx] at h1
  · simp [lowerPrefixMatches_takeWhile _ q cs hx] at h2
  · simp [lowerPrefixMatches_takeWhile _ q cs hx] at h3
  · simp [lowerPrefixMatches_takeWhile _ q cs hx] at h4

theorem matchAt_not_excluded (cs t rest : List Char)
    (h : matchAt cs = Option.some (t, rest)) : excludedScheme t = false := by
  simp only [matchAt] at h
  split at h
  next cs1 =>
    split at h
    next cs4 heq2 =>
      split at h
      next => cases h
      next =>
        split at h
        next hex => cases h
        next hex =>
          split at h
          next rest2 heq3 =>
            split at h
            next => cases h
            next =>
              rw [Option.some.injEq, Prod.mk.injEq] at h
              rw [← h.1]
              exact excludedScheme_takeWhile_false _ cs4 (by simpa using hex)
          next heq3 => cases h
    next heq2 => cases h
  next heq1 => cases h

theorem findAllAux_not_excluded :
    ∀ (fuel : Nat) (cs : List Char), ∀ t ∈ findAllAux fuel cs, excludedScheme t = false := by
  intro fuel
  induction fuel with
  | zero => intro cs t ht; simp [findAllAux] at ht
  | succ n ih =>
    intro cs t ht
    cases cs with
    | nil => simp [findAllAux] at ht
    | cons c cs2 =>
      rw [findAllAux] at ht
      cases hm : matchAt (c :: cs2) with
      | some pr =>
        obtain ⟨t0, rest⟩ := pr
        rw [hm] at ht
        simp only at ht
        rcases List.mem_cons.mp ht with he | he
        · exact he ▸ matchAt_not_excluded (c :: cs2) t0 rest hm
        · exact ih rest t he
      | none =>
        rw [hm] at ht
        exact ih cs2 t ht

/-! # A length bound for `pySplitAux` -/

theorem pySplitAux_length (sep : List Char) :
    ∀ (n : Nat) (cs : List Char), (pySplitAux sep n cs).length ≤ n + 1 := by
  intro n
  induction n with
  | zero => intro cs; rw [pySplitAux]; simp
  | succ m ih =>
    intro cs
    rw [pySplitAux]
    cases h : splitOnce sep cs with
    | none => simp
    | some pr =>
      obtain ⟨pre, post⟩ := pr
      have := ih post
      simp only [List.length_cons]
      omega

/-! # The claims -/

/-- Claim C1 (amended): for every record collection, an edge's weight equals
the number of scanned strings (the body, and each string-valued property
value, over every row carrying the source identifier) in which the target is
mentioned at least once — references count once per scanned string, not once
per occurrence — and the edge exists exactly when that total is positive,
the target has a registered node, and the target differs from the source. -/
theorem claim_C1 (rows : List Record) (norm : Bool) (g : Graph) (s t : String)
    (h : build_object_graph rows norm = .ok g) :
    edgeWeight g s t =
      if s ≠ t ∧ t ∈ validNames rows ∧ 0 < totalFieldCount rows s t
      then Option.some (totalFieldCount rows s t) else Option.none :=
  build_edgeWeight_aux rows norm g s t h

/-- Claim C1 counterexample: a body that mentions the same existing target
twice yields an edge of weight 1, not 2 — the claim's occurrence count is 2
while the built weight is 1, because `extract_object_mentions` deduplicates
within a single text. -/
theorem claim_C1_counterexample :
    specOccurrenceCount exampleMeeting "Corey Shaya.md" = 2
      ∧ edgeWeight (graphOf (build_object_graph [exampleMeeting, examplePerson] true))
          "Meeting.md" "Corey Shaya.md" = Option.some 1 :=
  ⟨rfl, rfl⟩

/-- Claim C1 witness: the amended weight formula evaluated on a concrete
two-record collection. -/
theorem claim_C1_witness :
    edgeWeight (graphOf (build_object_graph [exampleMeeting, examplePerson] true))
        "Meeting.md" "Corey Shaya.md" =
      if "Meeting.md" ≠ "Corey Shaya.md"
          ∧ "Corey Shaya.md" ∈ validNames [exampleMeeting, examplePerson]
          ∧ 0 < totalFieldCount [exampleMeeting, examplePerson] "Meeting.md" "Corey Shaya.md"
      then Option.some
        (totalFieldCount [exampleMeeting, examplePerson] "Meeting.md" "Corey Shaya.md")
      else Option.none :=
  claim_C1 [exampleMeeting, examplePerson] true
    (graphOf (build_object_graph [exampleMeeting, examplePerson] true))
    "Meeting.md" "Corey Shaya.md" rfl

/-- Claim C2 (amended): a header segment that raises a YAML parse error is
absorbed — the record is still produced, with an empty properties mapping —
but a header segment that parses successfully to a non-mapping value (None,
a scalar, a list) makes record extraction raise instead of absorbing. -/
theorem claim_C2 :
    (∀ (yaml : String → Except Unit PyValue) (name content : String) (p0 p1 p2 : List Char),
      pySplitAux "---".data 2 content.data = [p0, p1, p2] →
      yaml (String.mk p1) = .error () →
      parseDocument yaml name content = .ok (Option.some
        { object_type := .str "", title := .str (String.mk (stemOf name.data)),
          properties := [], text_content := String.mk (pyStrip p2),
          file_name := String.mk (posixName name.data) }))
    ∧ (∀ (yaml : String → Except Unit PyValue) (name content : String) (p0 p1 p2 : List Char)
        (v : PyValue),
      pySplitAux "---".data 2 content.data = [p0, p1, p2] →
      yaml (String.mk p1) = .ok v →
      (∀ kvs, v ≠ .dict kvs) →
      parseDocument yaml name content = .error ()) := by
  constructor
  · intro yaml name content p0 p1 p2 hsplit hyaml
    simp only [parseDocument, hsplit, hyaml, yamlToProps]
    rfl
  · intro yaml name content p0 p1 p2 v hsplit hyaml hv
    simp only [parseDocument, hsplit, hyaml]
    cases v with
    | dict kvs => exact absurd rfl (hv kvs)
    | null => rfl
    | bool b => rfl
    | int n => rfl
    | str s => rfl
    | date n => rfl
    | list xs => rfl

/-- Claim C2 counterexample: a document whose header segment is blank parses
to YAML None, and the subsequent `properties.get` raises `AttributeError`,
so record extraction does raise on malformed input. -/
theorem claim_C2_counterexample :
    parse_capacities_export_zip yamlNullOracle tdNaT [("Note.md", "---\n\n---\nbody")]
      = .error () := rfl

/-- Claim C2 witness: a syntactically invalid YAML header is absorbed into
an empty mapping and the record is still produced. -/
theorem claim_C2_witness :
    parseDocument yamlErrOracle "Note.md" exampleBadYamlContent = .ok (Option.some
      { object_type := .str "", title := .str "Note", properties := [],
        text_content := "body", file_name := "Note.md" }) :=
  claim_C2.1 yamlErrOracle "Note.md" exampleBadYamlContent
    "".data "\n[unclosed\n".data "\nbody".data rfl rfl

/-- Claim C3 (amended): `build_object_graph` raises no error whenever every
dict-valued attribute of every row is JSON-serializable, and never when
normalization is off; with the default normalization on, a properties
mapping containing a non-serializable value raises `TypeError` instead of
degrading to an omission. -/
theorem claim_C3 (rows : List Record) (norm : Bool) :
    ((∀ r ∈ rows, rowAttrsOk r = true) → ∃ g, build_object_graph rows norm = .ok g)
      ∧ (∃ g, build_object_graph rows false = .ok g) := by
  constructor
  · intro h
    obtain ⟨out, hout⟩ := pass1_ok norm rows [] []
      (fun r hr => rowNodeAttrs_ok norm r (Or.inr (h r hr)))
    obtain ⟨ns, lk⟩ := out
    exact ⟨⟨ns, pass2 lk rows []⟩, by simp only [build_object_graph, hout]⟩
  · obtain ⟨out, hout⟩ := pass1_ok false rows [] []
      (fun r _ => rowNodeAttrs_false_ok r)
    obtain ⟨ns, lk⟩ := out
    exact ⟨⟨ns, pass2 lk rows []⟩, by simp only [build_object_graph, hout]⟩

/-- Claim C3 counterexample: a record whose properties mapping contains a
YAML-parsed date object makes `build_object_graph` raise (a `TypeError`
from `json.dumps`) rather than degrade to an omission. -/
theorem claim_C3_counterexample :
    build_object_graph [exampleDateProps] true = .error () := rfl

/-- Claim C3 witness: the no-error guarantee applied to a concrete
serializable collection. -/
theorem claim_C3_witness :
    ∃ g, build_object_graph [exampleSerializable] true = .ok g :=
  (claim_C3 [exampleSerializable] true).1 (by decide)

/-- Claim C4 (amended): when identifiers collide, the registered node does
not keep the first record's attributes: each duplicate updates the node's
attribute mapping in input order (shared keys overwritten by later rows,
keys absent from later rows left as previously set), and every duplicate
row still contributes to edge weights. -/
theorem claim_C4 (rows : List Record) (norm : Bool) (g : Graph) (n : String)
    (h : build_object_graph rows norm = .ok g) :
    (∃ as, rowAttrsAll norm (rows.filter (fun r => validName r.file_name = Option.some n))
        = .ok as
      ∧ getA g.nodes n = as.foldl mergeOpt Option.none)
    ∧ ∀ s t, edgeWeight g s t =
        if s ≠ t ∧ t ∈ validNames rows ∧ 0 < totalFieldCount rows s t
        then Option.some (totalFieldCount rows s t) else Option.none :=
  ⟨build_getA_nodes rows norm g n h, fun s t => build_edgeWeight_aux rows norm g s t h⟩

/-- Claim C4 counterexample: with two records sharing an identifier, the
node's title is the second record's "T2", not the first record's "T1". -/
theorem claim_C4_counterexample :
    nodeAttr (build_object_graph [exampleDupFirst, exampleDupSecond] true) "A.md" "title"
        = Option.some (.str "T2")
      ∧ Option.some (PyValue.str "T2") ≠ Option.some (PyValue.str "T1") :=
  ⟨rfl, by simp⟩

/-- Claim C4 witness: the merge characterization evaluated on the concrete
duplicate pair. -/
theorem claim_C4_witness :
    (∃ as, rowAttrsAll true ([exampleDupFirst, exampleDupSecond].filter
        (fun r => validName r.file_name = Option.some "A.md")) = .ok as
      ∧ getA (graphOf (build_object_graph [exampleDupFirst, exampleDupSecond] true)).nodes
          "A.md" = as.foldl mergeOpt Option.none)
    ∧ ∀ s t, edgeWeight (graphOf (build_object_graph [exampleDupFirst, exampleDupSecond]
          true)) s t =
        if s ≠ t ∧ t ∈ validNames [exampleDupFirst, exampleDupSecond]
            ∧ 0 < totalFieldCount [exampleDupFirst, exampleDupSecond] s t
        then Option.some (totalFieldCount [exampleDupFirst, exampleDupSecond] s t)
        else Option.none :=
  claim_C4 [exampleDupFirst, exampleDupSecond] true
    (graphOf (build_object_graph [exampleDupFirst, exampleDupSecond] true)) "A.md" rfl

/-- Claim C5 (amended): a link whose target begins immediately with an
excluded external scheme (http://, https://, mailto:, capacities://,
case-insensitively) is never captured by the mention pattern, so such a
link contributes no mention — in particular Scenario C's body extracts
nothing. An equal string can nevertheless appear in the output when a
different link's target carries leading whitespace before the scheme. -/
theorem claim_C5 :
    (∀ (s : String), ∀ t ∈ mentionFindAll s.data, excludedScheme t = false)
      ∧ extract_object_mentions "[External](https://example.com/x.md)" = [] :=
  ⟨fun s t ht => findAllAux_not_excluded s.data.length s.data t ht, rfl⟩

/-- Claim C5 counterexample: the text holds a link whose target is exactly
`mailto:foo.md` — an excluded-scheme target — and that very string appears
in the extractor's output (contributed by the second link, whose
leading-space target defeats the lookahead). -/
theorem claim_C5_counterexample :
    ("[a](mailto:foo.md) [b]( mailto:foo.md)" : String)
        = "" ++ "[" ++ "a" ++ "](" ++ "mailto:foo.md" ++ ")" ++ " [b]( mailto:foo.md)"
      ∧ excludedScheme "mailto:foo.md".data = true
      ∧ "mailto:foo.md" ∈ extract_object_mentions "[a](mailto:foo.md) [b]( mailto:foo.md)" :=
  ⟨rfl, rfl, by decide⟩

/-- Claim C5 witness: a captured target of a concrete text, shown not to
begin with an excluded scheme. -/
theorem claim_C5_witness :
    excludedScheme "x.md".data = false :=
  claim_C5.1 "[a](x.md)" "x.md".data (by decide)

/-- Claim C6 (amended): an archive entry produces a record exactly when its
content splits on `---` (at most two splits) into three parts — i.e. it has
at least two delimiter occurrences — regardless of whether the leading part
is empty (no leading-empty-segment requirement is enforced), provided the
header then parses to a mapping or its parse failure is absorbed; shorter
documents are skipped entirely, never yielding a degenerate record. -/
theorem claim_C6 (yaml : String → Except Unit PyValue) (name content : String) :
    (parseDocument yaml name content = .ok Option.none
        ↔ (pySplitAux "---".data 2 content.data).length < 3)
      ∧ ((∃ r, parseDocument yaml name content = .ok (Option.some r))
        ↔ 3 ≤ (pySplitAux "---".data 2 content.data).length
          ∧ ∃ kvs, yamlToProps (yaml (headerPart content)) = .ok kvs) := by
  have hlen := pySplitAux_length "---".data 2 content.data
  rcases hsplit : pySplitAux "---".data 2 content.data with _ | ⟨a, _ | ⟨b, _ | ⟨c, rest⟩⟩⟩
  · constructor
    · simp only [parseDocument, hsplit]
      simp
    · simp only [parseDocument, hsplit]
      simp
  · constructor
    · simp only [parseDocument, hsplit]
      simp
    · simp only [parseDocument, hsplit]
      simp
  · constructor
    · simp only [parseDocument, hsplit]
      simp
    · simp only [parseDocument, hsplit]
      simp
  · rw [hsplit] at hlen
    simp only [List.length_cons] at hlen
    have hrest : rest = [] := List.eq_nil_of_length_eq_zero (by omega)
    subst hrest
    have hhp : headerPart content = String.mk b := by
      rw [headerPart, hsplit]
    rw [hhp]
    cases hy : yamlToProps (yaml (String.mk b)) with
    | error e =>
      constructor
      · simp only [parseDocument, hsplit, hy]
        obtain ⟨⟩ := e
        simp
      · simp only [parseDocument, hsplit, hy]
        obtain ⟨⟩ := e
        simp
    | ok kvs =>
      constructor
      · simp only [parseDocument, hsplit, hy]
        simp
      · simp only [parseDocument, hsplit, hy]
        constructor
        · intro _
          exact ⟨by simp, kvs, rfl⟩
        · intro _
          exact ⟨_, rfl⟩

/-- Claim C6 counterexample: a record is produced from content whose
leading split segment is the non-empty `"x"`, so the leading-empty-segment
shape is not required. -/
theorem claim_C6_counterexample :
    parseDocument yamlTVOracle "N.md" "x---t: v---body" = .ok (Option.some
      { object_type := .str "", title := .str "N", properties := [("t", .str "v")],
        text_content := "body", file_name := "N.md" })
    ∧ (pySplitAux "---".data 2 "x---t: v---body".data).map String.mk
        = ["x", "t: v", "body"] :=
  ⟨rfl, rfl⟩

/-- Claim C6 witness: the skip direction evaluated on a concrete document
with no delimiters. -/
theorem claim_C6_witness :
    parseDocument yamlTVOracle "N.md" "no delimiters here" = .ok Option.none
      ↔ (pySplitAux "---".data 2 "no delimiters here".data).length < 3 :=
  (claim_C6 yamlTVOracle "N.md" "no delimiters here").1

/-- Claim C7: every graph built by `build_object_graph` has no self-loop
edge, and every edge's source and target identifiers have corresponding
nodes. -/
theorem claim_C7 (rows : List Record) (norm : Bool) (g : Graph)
    (h : build_object_graph rows norm = .ok g) :
    ∀ e ∈ g.edges, e.1.1 ≠ e.1.2 ∧ e.1.1 ∈ nodeKeys g ∧ e.1.2 ∈ nodeKeys g := by
  obtain ⟨ns, lk, hp, hg⟩ := build_ok_elim rows norm g h
  have hkeys := build_nodeKeys_mem rows norm g h
  have hlk := build_lookup_mem rows norm ns lk hp
  intro e he
  have hmem : e.1 ∈ g.edges.map Prod.fst := List.mem_map_of_mem Prod.fst he
  rw [hg] at hmem
  simp only at hmem
  rcases pass2_keys_sub lk rows [] e.1 hmem with h3 | h3
  · simp at h3
  · exact ⟨h3.2.2, (hkeys e.1.1).mpr h3.1, (hkeys e.1.2).mpr ((hlk e.1.2).mp h3.2.1)⟩

/-- Claim C7 witness: the invariant evaluated at the one edge of a concrete
collection with a self-mention and a cross-mention. -/
theorem claim_C7_witness :
    ("Self.md" : String) ≠ "Other.md"
      ∧ "Self.md" ∈ nodeKeys (graphOf (build_object_graph [exampleSelf, exampleOther] true))
      ∧ "Other.md" ∈ nodeKeys (graphOf (build_object_graph [exampleSelf, exampleOther] true)) :=
  claim_C7 [exampleSelf, exampleOther] true
    (graphOf (build_object_graph [exampleSelf, exampleOther] true)) rfl
    (("Self.md", "Other.md"), 1) (by decide)

/-- Claim C8: the extractor's output is exactly the first-occurrence
deduplication, by percent-decoded value, of the processed mention stream —
hence duplicate-free and first-occurrence-ordered — and empty input yields
the empty list. -/
theorem claim_C8 (s : String) :
    extract_object_mentions s = firstOccDedup (rawMentions s)
      ∧ (extract_object_mentions s).Nodup
      ∧ extract_object_mentions "" = [] :=
  ⟨extract_eq_firstOccDedup s, extract_nodup s, rfl⟩

/-- Claim C9: a record whose date property fails strict parsing gets the
not-a-time sentinel without raising (the exception is absorbed), still
appears in the graph as a node carrying its computed attributes, and no
timestamp attribute is stored on that node. -/
theorem claim_C9 (td : PyValue → Except Unit (Option Timestamp)) (raw : RawRecord)
    (rows : List Record) (norm : Bool) (g : Graph) (r : Record)
    (htd : td ((getA raw.properties "date").getD .null) = .error ())
    (hr : r = applyDate td raw)
    (hok : build_object_graph rows norm = .ok g)
    (hunique : rows.filter (fun r2 => validName r2.file_name = Option.some raw.file_name)
      = [r]) :
    r.date = Option.none
      ∧ ∃ a, rowNodeAttrs norm r = .ok a
        ∧ getA g.nodes raw.file_name = Option.some a
        ∧ getA a "date" = Option.none := by
  have hdate : r.date = Option.none := by
    rw [hr]
    simp only [applyDate]
    rw [htd]
  refine ⟨hdate, ?_⟩
  obtain ⟨as, has, hfold⟩ := build_getA_nodes rows norm g raw.file_name hok
  rw [hunique] at has
  cases ha : rowNodeAttrs norm r with
  | error e =>
    simp only [rowAttrsAll, ha] at has
    cases has
  | ok a =>
    simp only [rowAttrsAll, ha] at has
    cases has
    refine ⟨a, rfl, ?_, rowNodeAttrs_no_date norm r a hdate ha⟩
    rw [hfold]
    rfl

/-- Claim C9 witness: the guarantee evaluated on a record whose date is an
unparseable time range. -/
theorem claim_C9_witness :
    exampleRangeRecord.date = Option.none
      ∧ ∃ a, rowNodeAttrs true exampleRangeRecord = .ok a
        ∧ getA (graphOf (build_object_graph [exampleRangeRecord] true)).nodes "Standup.md"
          = Option.some a
        ∧ getA a "date" = Option.none :=
  claim_C9 tdRaise exampleRangeDate [exampleRangeRecord] true
    (graphOf (build_object_graph [exampleRangeRecord] true)) exampleRangeRecord
    rfl rfl rfl rfl

/-- Claim C10: repeated mentions of a target inside any single scanned
string contribute at most 1, while mentions spread across the body and
distinct string-valued property values accumulate: a target mentioned in
the body and in each of two different string property values yields an
edge of weight 3 when the target node exists and differs from the source. -/
theorem claim_C10 :
    (∀ v t : String, (extract_object_mentions v).count t ≤ 1)
      ∧ ∀ (rows : List Record) (norm : Bool) (g : Graph) (s t : String) (r : Record),
        build_object_graph rows norm = .ok g →
        rows.filter (fun r2 => validName r2.file_name = Option.some s) = [r] →
        s ≠ t → t ∈ validNames rows →
        t ∈ extract_object_mentions r.text_content →
        (propStrings r).countP (fun v => decide (t ∈ extract_object_mentions v)) = 2 →
        edgeWeight g s t = Option.some 3 := by
  constructor
  · intro v t
    exact List.nodup_iff_count_le_one.mp (extract_nodup v) t
  · intro rows norm g s t r hok hfilter hst htv htb hcount
    rw [build_edgeWeight_aux rows norm g s t hok]
    have hfc : fieldCount r t = 3 := by
      rw [fieldCount, if_pos htb, hcount]
    have hT : totalFieldCount rows s t = 3 := by
      rw [totalFieldCount, hfilter]
      simp [hfc]
    rw [hT, if_pos ⟨hst, htv, by omega⟩]

/-- Claim C10 witness: the per-string cap on a concrete doubled mention and
the weight-3 accumulation on a concrete record with one body mention and
two mentioning string properties. -/
theorem claim_C10_witness :
    (extract_object_mentions "[a](x.md) [b](x.md)").count "x.md" ≤ 1
      ∧ edgeWeight (graphOf (build_object_graph [exampleAccum, exampleTarget] true))
          "S.md" "T.md" = Option.some 3 :=
  ⟨claim_C10.1 "[a](x.md) [b](x.md)" "x.md",
    claim_C10.2 [exampleAccum, exampleTarget] true
      (graphOf (build_object_graph [exampleAccum, exampleTarget] true)) "S.md" "T.md"
      exampleAccum rfl rfl (by decide) (by decide) (by decide) rfl⟩
